import Mathlib

/-!
# Verification of `keepinpace` (point-kinetics solver + interactive session)

Shallow embedding of `src/keepinpace/solver.py` and
`src/keepinpace/interactive.py` into Lean 4.

Modelling conventions:
* Python floats are modelled as exact rationals (`ℚ`); float rounding and
  the `array.array('f')` float32 narrowing are abstracted away.
* `scipy.integrate.solve_ivp` is external library code.  It is modelled as an
  abstract integrator parameter `integ : Integ`; the structural guarantees
  documented by scipy (the returned time grid is nonempty, starts at the left
  endpoint of `t_span`, is strictly increasing when `start < end`, and the
  first solution column equals `y0`, with one column per time point) are
  packaged in the predicate `IntegOK` and assumed as a hypothesis where a
  claim needs them.  `integLin` is a concrete instance used for witnesses.
* A numpy array that may be 1-D (a state vector) or 2-D (a full solution
  matrix, stored column-per-sample) is modelled by `PyArr`.
* Wall-clock time (`time.time() - self._startTime`) is passed explicitly as a
  `clock : ℚ` argument to each operation.
-/

namespace Keepinpace

/-- A state vector `y` of the kinetics system: `y[0]` is the neutron density
`n`, `y[1..G]` are the precursor concentrations `C_i`. -/
abbrev Vec := List ℚ

/-- A numpy value that is either a 1-D state vector or a 2-D solution matrix.
The matrix is stored as the list of its columns (one column per time sample),
so `m.getD j []` is `values[:, j]` and `m.map (List.headD · 0)` is
`values[0]`. -/
inductive PyArr where
  | vec (v : Vec)
  | mat (m : List Vec)
  deriving DecidableEq, Repr

/-- The immutable delayed-neutron data set (the `dlayxs.Dlayxs` fields the
solver reads): decay constants `λ_i` and delayed fractions `β_i`. -/
structure DelayedNeutronData where
  precursorDecayConstants : List ℚ
  delayedNeutronFractions : List ℚ
  deriving DecidableEq, Repr

/-- `KineticsSolver._system_rhs(t, y)` from `solver.py`:
`result[0] = (ρ(t)-1)/Λ · y[0] + (y[1:]·λ).sum()` and
`result[1:] = -y[1:]·λ + β/Λ · y[0]` (numpy elementwise products; the
elementwise combination of `y[1:]`, `λ` and `β` is a `zipWith`). -/
def system_rhs (lam beta : List ℚ) (Lam : ℚ) (rho : ℚ → ℚ) (t : ℚ) (y : Vec) : Vec :=
  ((rho t - 1) / Lam * y.headD 0 + (List.zipWith (fun yi li => yi * li) y.tail lam).sum) ::
    List.zipWith (fun yi p => -yi * p.1 + p.2 / Lam * y.headD 0) y.tail (lam.zip beta)

/-- `KineticsSolver._setInitialConditions` from `solver.py`: `initial[0] = 1`,
and `initial[i+1] = β_i / Λ / λ_i` for each `(β_i, λ_i)` produced by
`zip(fractions, constants)`; entries of `np.zeros(1+G)` beyond the zipped
range keep their value `0` (`zip` truncates to the shorter sequence while
`G = len(constants)`). -/
def initialState (data : DelayedNeutronData) (Lam : ℚ) : Vec :=
  1 ::
    (List.zipWith (fun b l => b / Lam / l)
        data.delayedNeutronFractions data.precursorDecayConstants ++
      List.replicate
        (data.precursorDecayConstants.length -
          min data.delayedNeutronFractions.length data.precursorDecayConstants.length)
        0)

/-- Exceptions a `KineticsSolver.__init__` call can raise.  The code itself
only ever raises `ZeroDivisionError` (from `betaFrac / Λ / decayConst`);
`InvalidConfiguration` is the error class named by the spec's error taxonomy
and is included so that the spec's claim about it can be stated. -/
inductive PyErr where
  | zeroDivisionError
  | invalidConfiguration
  deriving DecidableEq, Repr

/-- `True` iff the Python loop in `_setInitialConditions` hits a division by
zero: some zipped pair `(β_i, λ_i)` is reached with `Λ = 0` (first division)
or `λ_i = 0` (second division). -/
def initDivByZero (data : DelayedNeutronData) (Lam : ℚ) : Bool :=
  (data.delayedNeutronFractions.zip data.precursorDecayConstants).any
    (fun p => Lam = 0 ∨ p.2 = 0)

/-- The state of a `KineticsSolver` instance (the callback `externalReactivity`
is supplied separately at each `solve`, since in the interactive session it
just reads the session's `_currentRho`). -/
structure KineticsSolver where
  delayedNeutronData : DelayedNeutronData
  normalizedGenerationTime : ℚ
  state : PyArr
  initial : Vec
  deriving DecidableEq, Repr

/-- The successfully-constructed solver: `initial` set by
`_setInitialConditions`, then `state = initial[:]`. -/
def mkSolverCore (data : DelayedNeutronData) (Lam : ℚ) : KineticsSolver :=
  { delayedNeutronData := data
    normalizedGenerationTime := Lam
    state := .vec (initialState data Lam)
    initial := initialState data Lam }

/-- `KineticsSolver.__init__`: performs no configuration validation; the only
failure mode is the `ZeroDivisionError` arising inside
`_setInitialConditions`. -/
def mkSolver (data : DelayedNeutronData) (Lam : ℚ) : Except PyErr KineticsSolver :=
  if initDivByZero data Lam then .error .zeroDivisionError
  else .ok (mkSolverCore data Lam)

/-- An abstract adaptive integrator standing for `scipy.integrate.solve_ivp`:
given the right-hand side `f(t, y)`, the span `(a, b)` and the initial state
`y0`, it returns the time grid and the solution matrix (as a list of columns,
one per time point). -/
abbrev Integ := (ℚ → Vec → Vec) → ℚ → ℚ → Vec → List ℚ × List Vec

/-- Structural guarantees of `solve_ivp` (for a forward span `a < b`): the
time grid is nonempty, starts at `a`, is strictly increasing; the solution
has one column per time point and its first column is `y0`. -/
def IntegOK (integ : Integ) : Prop :=
  ∀ f a b y0, a < b →
    (integ f a b y0).1 ≠ [] ∧
    (integ f a b y0).1.head? = some a ∧
    List.Sorted (· < ·) (integ f a b y0).1 ∧
    (integ f a b y0).2.length = (integ f a b y0).1.length ∧
    (integ f a b y0).2.head? = some y0

/-- A trivial concrete integrator (two grid points, constant solution) that
satisfies the structural guarantees `IntegOK`; used to instantiate witnesses. -/
def integLin : Integ := fun _ a b y0 => ([a, b], [y0, y0])

/-- A three-point concrete integrator, used where a counterexample needs a
trajectory with more than one sample inside the integration window. -/
def integMid : Integ := fun _ a b y0 => ([a, (a + b) / 2, b], [y0, y0, y0])

/-- `KineticsSolver.solve(start, end)` from `solver.py`: reads `self.state`
as the initial condition, integrates, and then executes
`self.state = values` — i.e. it stores the whole solution matrix, not its
last column.  (If `self.state` is already a matrix from a previous `solve`,
scipy would reject the 2-D `y0` with a `ValueError`; that branch is modelled
by the empty vector and is never reached in the session flows, which always
overwrite `state` with a vector first.) -/
def KineticsSolver.solve (integ : Integ) (rho : ℚ → ℚ) (sol : KineticsSolver)
    (a b : ℚ) : (List ℚ × List Vec) × KineticsSolver :=
  let y0 : Vec := match sol.state with
    | .vec v => v
    | .mat _ => []
  let r := integ
    (fun t y => system_rhs sol.delayedNeutronData.precursorDecayConstants
      sol.delayedNeutronData.delayedNeutronFractions
      sol.normalizedGenerationTime rho t y)
    a b y0
  (r, { sol with state := .mat r.2 })

/-- `TimeData = namedtuple("TimeData", ["times", "vals"])` from
`interactive.py`; `vals` holds only row 0 of the solution (neutron density). -/
structure TimeData where
  times : List ℚ
  vals : List ℚ
  deriving DecidableEq, Repr

/-- `HORIZON = 20.0` from `interactive.py`. -/
def HORIZON : ℚ := 20

/-- The state of an `InteractiveKinetics` session: the wrapped solver, the
mutable current reactivity, the continuation cursor `_solutionIndex`, the
`past`/`future` trajectories, and `_fullSolution` (the columns of the most
recent full solve). -/
structure Session where
  solver : KineticsSolver
  currentRho : ℚ
  solutionIndex : ℕ
  past : TimeData
  future : TimeData
  fullSolution : List Vec
  deriving DecidableEq, Repr

/-- `InteractiveKinetics.reactivity(t)`: returns `self._currentRho`,
ignoring `t`. -/
def Session.reactivity (s : Session) (_t : ℚ) : ℚ :=
  s.currentRho

/-- `InteractiveKinetics.__init__`: builds the solver, sets
`_currentRho = 0`, `_solutionIndex = 0`, empty `past`, performs
`solve(0, HORIZON)` (during which the reactivity callback reads the already
assigned `_currentRho = 0`), and seeds `future` with the times and row 0 of
the result. -/
def Session.init (integ : Integ) (data : DelayedNeutronData) (Lam : ℚ) : Session :=
  let sol0 := mkSolverCore data Lam
  let r := sol0.solve integ (fun _ => 0) 0 HORIZON
  { solver := r.2
    currentRho := 0
    solutionIndex := 0
    past := ⟨[], []⟩
    future := ⟨r.1.1, r.1.2.map (List.headD · 0)⟩
    fullSolution := r.1.2 }

/-- `InteractiveKinetics.step` (the plotting hooks of the base class are
no-ops): if `future.times` is empty, return; if `currentTime <
future.times[0]`, return; otherwise pop the front sample of `future` onto
`past` and increment `_solutionIndex`.  `clock` is the value of
`self.currentTime` (`time.time() - self._startTime`). -/
def Session.step (clock : ℚ) (s : Session) : Session :=
  match s.future.times with
  | [] => s
  | t :: ts =>
    if clock < t then s
    else
      { s with
        past := ⟨s.past.times ++ [t], s.past.vals ++ [s.future.vals.headD 0]⟩
        future := ⟨ts, s.future.vals.tail⟩
        solutionIndex := s.solutionIndex + 1 }

/-- `InteractiveKinetics.recomputeFuture(duration)`: reads
`initialTime = self.currentTime`, sets the solver state to
`self._fullSolution[:, self._solutionIndex]`, solves over
`(initialTime, initialTime + duration)`, replaces `future` wholesale with
the new times and row 0, stores the new full solution, and resets
`_solutionIndex = 0`.  When `_solutionIndex` is out of range the Python
indexing raises `IndexError` before any mutation, so the session state is
left unchanged. -/
def Session.recomputeFuture (integ : Integ) (clock duration : ℚ) (s : Session) : Session :=
  if s.solutionIndex < s.fullSolution.length then
    let initialTime := clock
    let sol := { s.solver with state := .vec (s.fullSolution.getD s.solutionIndex []) }
    let r := sol.solve integ s.reactivity initialTime (initialTime + duration)
    { s with
      solver := r.2
      future := ⟨r.1.1, r.1.2.map (List.headD · 0)⟩
      fullSolution := r.1.2
      solutionIndex := 0 }
  else s

/-- `updateRho` (the slider callback): assign `_currentRho = newRho`, then
`recomputeFuture(HORIZON)`. -/
def Session.setReactivity (integ : Integ) (clock newRho : ℚ) (s : Session) : Session :=
  Session.recomputeFuture integ clock HORIZON { s with currentRho := newRho }

/-- One externally triggered operation on a session, tagged with the
wall-clock reading (`currentTime`) at which it runs. -/
inductive Op where
  | step (clock : ℚ)
  | recompute (clock : ℚ)
  | setRho (clock rho : ℚ)
  deriving DecidableEq, Repr

/-- The clock reading at which an operation runs. -/
def Op.clock : Op → ℚ
  | .step c => c
  | .recompute c => c
  | .setRho c _ => c

/-- Apply one operation (`recompute` and `setRho` use the `HORIZON`
look-ahead, as the code does). -/
def Session.applyOp (integ : Integ) (op : Op) (s : Session) : Session :=
  match op with
  | .step c => Session.step c s
  | .recompute c => Session.recomputeFuture integ c HORIZON s
  | .setRho c rho => Session.setReactivity integ c rho s

/-- Run a sequence of operations. -/
def Session.run (integ : Integ) (s : Session) : List Op → Session
  | [] => s
  | op :: rest => Session.run integ (Session.applyOp integ op s) rest

/-- `clocksMono c ops`: the wall-clock readings along `ops` are
non-decreasing and start at or after `c` (time only moves forward). -/
def clocksMono (c : ℚ) : List Op → Bool
  | [] => true
  | op :: rest => c ≤ op.clock && clocksMono op.clock rest

/-- The continuation state `self._fullSolution[:, self._solutionIndex]` read
by `recomputeFuture`. -/
def contVec (s : Session) : Vec :=
  s.fullSolution.getD s.solutionIndex []

/-- The right-hand-side function handed to the integrator when the session's
solver solves: the point-kinetics system under the session's reactivity
callback. -/
def rhsFun (s : Session) : ℚ → Vec → Vec := fun t y =>
  system_rhs s.solver.delayedNeutronData.precursorDecayConstants
    s.solver.delayedNeutronData.delayedNeutronFractions
    s.solver.normalizedGenerationTime s.reactivity t y

/-- The right-hand-side function used by the initial full-horizon solve in
`InteractiveKinetics.__init__` (reactivity callback reading the freshly set
`_currentRho = 0`). -/
def initRhs (data : DelayedNeutronData) (Lam : ℚ) : ℚ → Vec → Vec := fun t y =>
  system_rhs data.precursorDecayConstants data.delayedNeutronFractions Lam
    (fun _ => 0) t y

/-- Parallel-array invariant: `len(times) = len(vals)` for both `past` and
`future`. -/
def InvLen (s : Session) : Prop :=
  s.past.times.length = s.past.vals.length ∧
  s.future.times.length = s.future.vals.length

/-- Monotone-merge invariant, relative to a lower bound `c` on all future
clock readings: `past.times` is non-decreasing and bounded by `c`,
`future.times` is strictly increasing, and every past time is at most every
future time. -/
def InvMono (c : ℚ) (s : Session) : Prop :=
  List.Sorted (· ≤ ·) s.past.times ∧
  (∀ p ∈ s.past.times, p ≤ c) ∧
  List.Sorted (· < ·) s.future.times ∧
  (∀ p ∈ s.past.times, ∀ f ∈ s.future.times, p ≤ f)

/-! ## Helper lemmas -/

theorem integLin_ok : IntegOK integLin := by
  intro f a b y0 hab
  refine ⟨by simp [integLin], by simp [integLin], ?_, by simp [integLin], by simp [integLin]⟩
  simp [integLin, List.Sorted, hab]

theorem integMid_ok : IntegOK integMid := by
  intro f a b y0 hab
  refine ⟨by simp [integMid], by simp [integMid], ?_, by simp [integMid], by simp [integMid]⟩
  have h1 : a < (a + b) / 2 := by linarith
  have h2 : (a + b) / 2 < b := by linarith
  simp [integMid, List.Sorted, h1, h2, h1.trans h2]

/-- In a strictly sorted list whose head is `a`, every element is at least
`a`. -/
theorem sorted_head_le (l : List ℚ) (a : ℚ) (hh : l.head? = some a)
    (hs : List.Sorted (· < ·) l) : ∀ f ∈ l, a ≤ f := by
  cases l with
  | nil => simp at hh
  | cons x rest =>
    rw [List.head?_cons, Option.some.injEq] at hh
    subst hh
    intro f hf
    rcases List.mem_cons.mp hf with rfl | hf'
    · exact le_refl f
    · exact le_of_lt ((List.sorted_cons.mp hs).1 f hf')

/-- Characterization of `recomputeFuture` when the continuation index is in
range. -/
theorem recompute_eq (integ : Integ) (c d : ℚ) (s : Session)
    (hidx : s.solutionIndex < s.fullSolution.length) :
    Session.recomputeFuture integ c d s =
      { s with
        solver := { s.solver with
          state := PyArr.mat (integ (rhsFun s) c (c + d) (contVec s)).2 }
        future := ⟨(integ (rhsFun s) c (c + d) (contVec s)).1,
          (integ (rhsFun s) c (c + d) (contVec s)).2.map (List.headD · 0)⟩
        fullSolution := (integ (rhsFun s) c (c + d) (contVec s)).2
        solutionIndex := 0 } := by
  unfold Session.recomputeFuture
  rw [if_pos hidx]
  rfl

/-- `recomputeFuture` never touches `past` (in either branch of the index
check). -/
theorem recompute_past (integ : Integ) (c d : ℚ) (s : Session) :
    (Session.recomputeFuture integ c d s).past = s.past := by
  unfold Session.recomputeFuture
  split <;> rfl

/-- `step` as a function of the shape of `future.times`: no-op on an empty
future. -/
theorem step_eq_empty (c : ℚ) (s : Session) (h : s.future.times = []) :
    Session.step c s = s := by
  simp [Session.step, h]

/-- `step` is a no-op while the earliest future time is still ahead of the
clock. -/
theorem step_eq_wait (c : ℚ) (s : Session) (t : ℚ) (ts : List ℚ)
    (h : s.future.times = t :: ts) (hlt : c < t) : Session.step c s = s := by
  simp [Session.step, h, hlt]

/-- `step` pops exactly the front sample once the clock has reached it. -/
theorem step_eq_pop (c : ℚ) (s : Session) (t : ℚ) (ts : List ℚ)
    (h : s.future.times = t :: ts) (hle : t ≤ c) :
    Session.step c s =
      { s with
        past := ⟨s.past.times ++ [t], s.past.vals ++ [s.future.vals.headD 0]⟩
        future := ⟨ts, s.future.vals.tail⟩
        solutionIndex := s.solutionIndex + 1 } := by
  simp [Session.step, h, not_lt.mpr hle]

/-- `Session.init` written without its intermediate `let`s. -/
theorem init_eq (integ : Integ) (data : DelayedNeutronData) (Lam : ℚ) :
    Session.init integ data Lam =
      { solver := { mkSolverCore data Lam with
          state := PyArr.mat (integ (initRhs data Lam) 0 HORIZON (initialState data Lam)).2 }
        currentRho := 0
        solutionIndex := 0
        past := ⟨[], []⟩
        future := ⟨(integ (initRhs data Lam) 0 HORIZON (initialState data Lam)).1,
          (integ (initRhs data Lam) 0 HORIZON (initialState data Lam)).2.map (List.headD · 0)⟩
        fullSolution := (integ (initRhs data Lam) 0 HORIZON (initialState data Lam)).2 } :=
  rfl

theorem invLen_init (integ : Integ) (hI : IntegOK integ) (data : DelayedNeutronData)
    (Lam : ℚ) : InvLen (Session.init integ data Lam) := by
  obtain ⟨_, _, _, hlen, _⟩ :=
    hI (initRhs data Lam) 0 HORIZON (initialState data Lam) (by norm_num [HORIZON])
  rw [init_eq]
  exact ⟨rfl, by simp [hlen]⟩

theorem invLen_step (c : ℚ) (s : Session) (h : InvLen s) : InvLen (Session.step c s) := by
  obtain ⟨hp, hf⟩ := h
  cases hft : s.future.times with
  | nil => rw [step_eq_empty c s hft]; exact ⟨hp, hf⟩
  | cons t ts =>
    by_cases hc : c < t
    · rw [step_eq_wait c s t ts hft hc]; exact ⟨hp, hf⟩
    · rw [step_eq_pop c s t ts hft (not_lt.mp hc)]
      constructor
      · show (s.past.times ++ [t]).length = (s.past.vals ++ [s.future.vals.headD 0]).length
        simp [hp]
      · show ts.length = s.future.vals.tail.length
        rw [List.length_tail, ← hf, hft, List.length_cons]
        omega

theorem invLen_recompute (integ : Integ) (hI : IntegOK integ) (c d : ℚ)
    (hd : 0 < d) (s : Session) (h : InvLen s) :
    InvLen (Session.recomputeFuture integ c d s) := by
  by_cases hidx : s.solutionIndex < s.fullSolution.length
  · rw [recompute_eq integ c d s hidx]
    obtain ⟨_, _, _, hlen, _⟩ := hI (rhsFun s) c (c + d) (contVec s) (by linarith)
    exact ⟨h.1, by simp [hlen]⟩
  · unfold Session.recomputeFuture
    rw [if_neg hidx]
    exact h

theorem invLen_applyOp (integ : Integ) (hI : IntegOK integ) (op : Op) (s : Session)
    (h : InvLen s) : InvLen (Session.applyOp integ op s) := by
  cases op with
  | step c => exact invLen_step c s h
  | recompute c => exact invLen_recompute integ hI c HORIZON (by norm_num [HORIZON]) s h
  | setRho c rho =>
    exact invLen_recompute integ hI c HORIZON (by norm_num [HORIZON])
      { s with currentRho := rho } h

theorem invLen_run (integ : Integ) (hI : IntegOK integ) (ops : List Op) :
    ∀ s : Session, InvLen s → InvLen (Session.run integ s ops) := by
  induction ops with
  | nil => intro s h; exact h
  | cons op rest ih =>
    intro s h
    exact ih (Session.applyOp integ op s) (invLen_applyOp integ hI op s h)

theorem invMono_mono (c c' : ℚ) (h : c ≤ c') (s : Session) (hinv : InvMono c s) :
    InvMono c' s :=
  ⟨hinv.1, fun p hp => (hinv.2.1 p hp).trans h, hinv.2.2.1, hinv.2.2.2⟩

theorem invMono_init (integ : Integ) (hI : IntegOK integ) (data : DelayedNeutronData)
    (Lam : ℚ) : InvMono 0 (Session.init integ data Lam) := by
  obtain ⟨_, _, hsort, _, _⟩ :=
    hI (initRhs data Lam) 0 HORIZON (initialState data Lam) (by norm_num [HORIZON])
  rw [init_eq]
  exact ⟨by simp, by simp, hsort, by simp⟩

theorem invMono_step (c : ℚ) (s : Session) (hinv : InvMono c s) :
    InvMono c (Session.step c s) := by
  obtain ⟨hsortp, hbound, hsortf, hpf⟩ := hinv
  cases hft : s.future.times with
  | nil => rw [step_eq_empty c s hft]; exact ⟨hsortp, hbound, hsortf, hpf⟩
  | cons t ts =>
    by_cases hc : c < t
    · rw [step_eq_wait c s t ts hft hc]; exact ⟨hsortp, hbound, hsortf, hpf⟩
    · have hle : t ≤ c := not_lt.mp hc
      rw [hft] at hsortf
      obtain ⟨hts, hsortts⟩ := List.sorted_cons.mp hsortf
      rw [step_eq_pop c s t ts hft hle]
      refine ⟨?_, ?_, hsortts, ?_⟩
      · show List.Sorted (· ≤ ·) (s.past.times ++ [t])
        refine List.pairwise_append.mpr ⟨hsortp, List.sorted_singleton t, ?_⟩
        intro a ha b hb
        rw [List.mem_singleton] at hb
        exact (hb.symm : t = b) ▸ hpf a ha t (by rw [hft]; exact List.mem_cons_self t ts)
      · intro p hp
        rcases List.mem_append.mp hp with hp' | hp'
        · exact hbound p hp'
        · rw [List.mem_singleton] at hp'
          subst hp'
          exact hle
      · intro p hp f hf
        rcases List.mem_append.mp hp with hp' | hp'
        · exact hpf p hp' f (by rw [hft]; exact List.mem_cons_of_mem t hf)
        · rw [List.mem_singleton] at hp'
          subst hp'
          exact le_of_lt (hts f hf)

theorem invMono_recompute (integ : Integ) (hI : IntegOK integ) (c c' d : ℚ)
    (hcc : c ≤ c') (hd : 0 < d) (s : Session) (hinv : InvMono c s) :
    InvMono c' (Session.recomputeFuture integ c' d s) := by
  by_cases hidx : s.solutionIndex < s.fullSolution.length
  · obtain ⟨hne, hhead, hsort, hlen, hcol⟩ :=
      hI (rhsFun s) c' (c' + d) (contVec s) (by linarith)
    rw [recompute_eq integ c' d s hidx]
    refine ⟨hinv.1, fun p hp => (hinv.2.1 p hp).trans hcc, hsort, ?_⟩
    intro p hp f hf
    exact ((hinv.2.1 p hp).trans hcc).trans
      (sorted_head_le _ c' hhead hsort f hf)
  · unfold Session.recomputeFuture
    rw [if_neg hidx]
    exact invMono_mono c c' hcc s hinv

theorem invMono_applyOp (integ : Integ) (hI : IntegOK integ) (c : ℚ) (op : Op)
    (s : Session) (hc : c ≤ op.clock) (hinv : InvMono c s) :
    InvMono op.clock (Session.applyOp integ op s) := by
  cases op with
  | step c' => exact invMono_step c' s (invMono_mono c c' hc s hinv)
  | recompute c' =>
    exact invMono_recompute integ hI c c' HORIZON hc (by norm_num [HORIZON]) s hinv
  | setRho c' rho =>
    exact invMono_recompute integ hI c c' HORIZON hc (by norm_num [HORIZON])
      { s with currentRho := rho } hinv

theorem invMono_run (integ : Integ) (hI : IntegOK integ) (ops : List Op) :
    ∀ (c : ℚ) (s : Session), clocksMono c ops = true → InvMono c s →
      ∃ c', InvMono c' (Session.run integ s ops) := by
  induction ops with
  | nil => intro c s _ hinv; exact ⟨c, hinv⟩
  | cons op rest ih =>
    intro c s hmono hinv
    simp only [clocksMono, Bool.and_eq_true, decide_eq_true_eq] at hmono
    exact ih op.clock (Session.applyOp integ op s) hmono.2
      (invMono_applyOp integ hI c op s hmono.1 hinv)

theorem sum_zipWith_mul (xs : List ℚ) :
    ∀ (ys : List ℚ) (n : ℕ), xs.length = n → ys.length = n →
      (List.zipWith (fun a b => a * b) xs ys).sum =
        ∑ i in Finset.range n, xs.getD i 0 * ys.getD i 0 := by
  induction xs with
  | nil =>
    intro ys n hx hy
    simp [← hx]
  | cons x xs ih =>
    intro ys n hx hy
    cases ys with
    | nil => simp [← hx] at hy
    | cons y ys =>
      cases n with
      | zero => simp at hx
      | succ m =>
        simp only [List.length_cons, Nat.succ.injEq] at hx hy
        rw [List.zipWith_cons_cons, List.sum_cons, Finset.sum_range_succ']
        simp only [List.getD_cons_succ, List.getD_cons_zero]
        rw [ih ys m hx hy]
        ring

theorem sum_zipWith_start (B : List ℚ) (Lam : ℚ) :
    ∀ C : List ℚ, B.length = C.length → (∀ l ∈ C, l ≠ 0) →
      (List.zipWith (fun a b => a * b)
        (List.zipWith (fun b l => b / Lam / l) B C) C).sum = B.sum / Lam := by
  induction B with
  | nil =>
    intro C hlen _
    simp at hlen
    simp [← hlen, zero_div]
  | cons b B ih =>
    intro C hlen hC
    cases C with
    | nil => simp at hlen
    | cons l C =>
      simp only [List.length_cons, Nat.succ.injEq] at hlen
      have hl : l ≠ 0 := hC l (List.mem_cons_self l C)
      rw [List.zipWith_cons_cons, List.zipWith_cons_cons, List.sum_cons, List.sum_cons,
        ih C hlen (fun x hx => hC x (List.mem_cons_of_mem l hx)),
        div_mul_cancel₀ _ hl, add_div]

theorem zipWith_precursor_zero (B : List ℚ) (Lam : ℚ) :
    ∀ C : List ℚ, B.length = C.length → (∀ l ∈ C, l ≠ 0) →
      List.zipWith (fun yi p => -yi * p.1 + p.2 / Lam * 1)
          (List.zipWith (fun b l => b / Lam / l) B C) (C.zip B) =
        List.replicate C.length 0 := by
  induction B with
  | nil =>
    intro C hlen _
    simp at hlen
    simp [← hlen]
  | cons b B ih =>
    intro C hlen hC
    cases C with
    | nil => simp at hlen
    | cons l C =>
      simp only [List.length_cons, Nat.succ.injEq] at hlen
      have hl : l ≠ 0 := hC l (List.mem_cons_self l C)
      rw [List.zipWith_cons_cons, List.zip_cons_cons, List.zipWith_cons_cons,
        ih C hlen (fun x hx => hC x (List.mem_cons_of_mem l hx)),
        List.length_cons, List.replicate_succ]
      congr 1
      show -(b / Lam / l) * l + b / Lam * 1 = 0
      rw [mul_one, neg_mul, div_mul_cancel₀ _ hl, neg_add_cancel]

/-! ## Claims -/

/-- **C4.** The right-hand side computed by `KineticsSolver._system_rhs` is
exactly the point-kinetics system of the spec: for a state `y` of size
`1 + G`, component 0 equals `(ρ(t) − 1)/Λ · y[0] + Σ_i λ_i·y[i]` and
component `i` (for `i = 1..G`) equals `−λ_i·y[i] + (β_i/Λ)·y[0]`. -/
theorem system_rhs_matches_pke (lam beta : List ℚ) (Lam : ℚ) (rho : ℚ → ℚ)
    (t : ℚ) (y : Vec) (G : ℕ) (hlam : lam.length = G) (hbeta : beta.length = G)
    (hy : y.length = 1 + G) :
    (system_rhs lam beta Lam rho t y).length = 1 + G ∧
    (system_rhs lam beta Lam rho t y).getD 0 0 =
      (rho t - 1) / Lam * y.getD 0 0 +
        ∑ i in Finset.range G, lam.getD i 0 * y.getD (i + 1) 0 ∧
    ∀ i < G, (system_rhs lam beta Lam rho t y).getD (i + 1) 0 =
      -(lam.getD i 0) * y.getD (i + 1) 0 + beta.getD i 0 / Lam * y.getD 0 0 := by
  obtain ⟨a, yt, rfl⟩ : ∃ a yt, y = a :: yt := by
    cases y with
    | nil =>
      simp only [List.length_nil] at hy
      omega
    | cons a yt => exact ⟨a, yt, rfl⟩
  have hyt : yt.length = G := by
    simpa [Nat.add_comm] using hy
  refine ⟨?_, ?_, ?_⟩
  · simp [system_rhs, hyt, hlam, hbeta, Nat.add_comm]
  · simp only [system_rhs, List.getD_cons_zero, List.tail_cons, List.headD_cons]
    rw [sum_zipWith_mul yt lam G hyt hlam]
    congr 1
    exact Finset.sum_congr rfl (fun i _ => by rw [List.getD_cons_succ, mul_comm])
  · intro i hi
    have hzip : (lam.zip beta).length = G := by simp [List.length_zip, hlam, hbeta]
    have hzw : (List.zipWith (fun yi p => -yi * p.1 + p.2 / Lam * a) yt (lam.zip beta)).length = G := by
      simp [List.length_zipWith, hyt, hzip]
    simp only [system_rhs, List.tail_cons, List.headD_cons, List.getD_cons_succ]
    rw [List.getD_eq_getElem _ _ (by rw [hzw]; exact hi),
      List.getElem_zipWith, List.getElem_zip,
      ← List.getD_eq_getElem yt 0 (by rw [hyt]; exact hi),
      ← List.getD_eq_getElem lam 0 (by rw [hlam]; exact hi),
      ← List.getD_eq_getElem beta 0 (by rw [hbeta]; exact hi),
      List.getD_cons_zero]
    simp [mul_comm]

/-- **C4 (witness).** Concrete evaluation: one precursor group `λ_1 = 1`,
`β_1 = 1/2`, `Λ = 1`, state `[1, 1/2]`; the precursor derivative equals
`-λ_1·C_1 + (β_1/Λ)·n`. -/
theorem system_rhs_matches_pke_witness :
    (system_rhs [1] [1 / 2] 1 (fun _ => 0) 0 [1, 1 / 2]).getD 1 0 =
      -(1 : ℚ) * (1 / 2) + 1 / 2 / 1 * 1 := by
  have h := (system_rhs_matches_pke [1] [1 / 2] 1 (fun _ => 0) 0 [1, 1 / 2] 1
    rfl rfl rfl).2.2 0 (by norm_num)
  simpa using h

/-- **C5 (counterexample).** A valid data set (`λ_1 = 1 > 0`,
`β_1 = 1/2 ≥ 0`, `Λ = 1 > 0`) for which the constructed initial state is
*not* a steady state: the right-hand side at reactivity `0` is
`[-1/2, 0] ≠ [0, 0]` (the delayed fractions do not sum to 1, so the
neutron-density derivative is `(Σβ − 1)/Λ ≠ 0`). -/
theorem initial_state_not_steady_cex :
    (0 : ℚ) < 1 ∧ (0 : ℚ) ≤ 1 / 2 ∧ (0 : ℚ) < 1 ∧
    system_rhs [1] [1 / 2] 1 (fun _ => 0) 0
        (initialState ⟨[1], [1 / 2]⟩ 1) ≠ List.replicate 2 0 := by
  refine ⟨by norm_num, by norm_num, by norm_num, ?_⟩
  norm_num [system_rhs, initialState, List.replicate]

/-- **C5 (amended).** The state constructed at initialization (`n = 1`,
`C_i = β_i/(Λ·λ_i)`) is a steady state of the code's right-hand side —
evaluating with reactivity `0` yields all `1 + G` derivative components
equal to zero — provided, in addition to `λ_i ≠ 0`, `Λ ≠ 0` and matching
lengths, that the delayed fractions sum to 1. -/
theorem initial_state_steady (data : DelayedNeutronData) (Lam : ℚ)
    (rho : ℚ → ℚ) (t : ℚ)
    (hlen : data.delayedNeutronFractions.length = data.precursorDecayConstants.length)
    (hl : ∀ l ∈ data.precursorDecayConstants, l ≠ 0) (hLam : Lam ≠ 0)
    (hsum : data.delayedNeutronFractions.sum = 1) (hrho : rho t = 0) :
    system_rhs data.precursorDecayConstants data.delayedNeutronFractions Lam rho t
        (initialState data Lam) =
      List.replicate (1 + data.precursorDecayConstants.length) 0 := by
  obtain ⟨C, B⟩ := data
  simp only at hlen hl hsum
  have hmin : C.length - min B.length C.length = 0 := by
    rw [hlen, Nat.min_self, Nat.sub_self]
  simp only [initialState, hmin, List.replicate_zero, List.append_nil] at *
  simp only [system_rhs, List.tail_cons, List.headD_cons]
  rw [Nat.add_comm, List.replicate_succ]
  congr 1
  · rw [sum_zipWith_start B Lam C hlen hl, hrho, hsum]
    field_simp
  · exact zipWith_precursor_zero B Lam C hlen hl

/-- **C5 (witness for the amended claim).** Single group with `λ_1 = 2`,
`β_1 = 1`, `Λ = 3`: the constructed state is a steady state. -/
theorem initial_state_steady_witness :
    system_rhs [2] [1] 3 (fun _ => 0) 0 (initialState ⟨[2], [1]⟩ 3) =
      List.replicate 2 0 :=
  initial_state_steady ⟨[2], [1]⟩ 3 (fun _ => 0) 0 rfl
    (by norm_num) (by norm_num) (by norm_num) rfl

/-- **C7 (counterexample).** An invalid configuration — `Λ = -1 ≤ 0` — for
which construction does *not* fail: `KineticsSolver.__init__` performs no
validation and returns a solver. -/
theorem construction_accepts_invalid_cex :
    ((-1 : ℚ) ≤ 0) ∧
    mkSolver ⟨[1], [1]⟩ (-1) = .ok (mkSolverCore ⟨[1], [1]⟩ (-1)) := by
  refine ⟨by norm_num, ?_⟩
  rw [mkSolver, if_neg]
  norm_num [initDivByZero]

/-- **C7 (amended).** Construction never raises `InvalidConfiguration` — the
code performs no configuration validation at all.  It succeeds for any
configuration (non-positive `Λ`, non-positive decay constants, mismatched
lengths — silently truncated by `zip` —, empty precursor-group set alike);
the only construction-time failure is a `ZeroDivisionError` when `Λ = 0` or
a zipped decay constant is exactly `0`. -/
theorem construction_no_validation (data : DelayedNeutronData) (Lam : ℚ) :
    mkSolver data Lam ≠ .error .invalidConfiguration ∧
    (Lam ≠ 0 → (∀ l ∈ data.precursorDecayConstants, l ≠ 0) →
      mkSolver data Lam = .ok (mkSolverCore data Lam)) := by
  constructor
  · intro h
    rw [mkSolver] at h
    split at h
    · rw [Except.error.injEq] at h
      exact PyErr.noConfusion h
    · exact Except.noConfusion h
  · intro hLam hl
    rw [mkSolver, if_neg]
    rw [initDivByZero, Bool.not_eq_true, List.any_eq_false]
    intro p hp
    simp only [decide_eq_true_eq]
    push_neg
    exact ⟨hLam, hl p.2 (List.of_mem_zip hp).2⟩

/-- **C7 (witness).** A configuration with `Λ = 5 ≠ 0` and nonzero decay
constants constructs successfully and does not raise
`InvalidConfiguration`. -/
theorem construction_no_validation_witness :
    mkSolver ⟨[2], [1]⟩ 5 ≠ .error .invalidConfiguration ∧
    mkSolver ⟨[2], [1]⟩ 5 = .ok (mkSolverCore ⟨[2], [1]⟩ 5) :=
  ⟨(construction_no_validation ⟨[2], [1]⟩ 5).1,
    (construction_no_validation ⟨[2], [1]⟩ 5).2 (by norm_num) (by norm_num)⟩

/-- **C1 (code bug).** `KineticsSolver.solve` executes `self.state = values`,
storing the *entire* solution matrix (here two columns) in `state`, not the
last sample `values[:, -1]`: after the call, `state` is the 2-D
`PyArr.mat [[1, 1/2], [1, 1/2]]`, which is not the last-sample vector
`PyArr.vec [1, 1/2]`.  A directly following `solve()` would hand this 2-D
array to `solve_ivp` as `y0` and fail. -/
theorem solve_stores_matrix_not_last_sample :
    ((mkSolverCore ⟨[1], [1 / 2]⟩ 1).solve integLin (fun _ => 0) 0 20).2.state =
      PyArr.mat [[1, 1 / 2], [1, 1 / 2]] ∧
    (((mkSolverCore ⟨[1], [1 / 2]⟩ 1).solve integLin
        (fun _ => 0) 0 20).1.2).getLast? = some [1, 1 / 2] ∧
    PyArr.mat [[1, 1 / 2], [1, 1 / 2]] ≠ PyArr.vec [1, 1 / 2] := by
  refine ⟨?_, ?_, by simp⟩
  · norm_num [KineticsSolver.solve, mkSolverCore, initialState, integLin]
  · norm_num [KineticsSolver.solve, mkSolverCore, initialState, integLin]

/-- **C2 (counterexample).** A `step()` call does not consume every future
sample whose time is ≤ the current elapsed time: with future sample times
`[0, 10, 20]` and elapsed time `25`, a single `step()` leaves
`future.times = [10, 20]` although `10 ≤ 25`. -/
theorem step_leaves_due_samples_cex :
    (Session.step 25 (Session.init integMid ⟨[1], [1 / 2]⟩ 1)).future.times = [10, 20] ∧
    (10 : ℚ) ≤ 25 := by
  refine ⟨?_, by norm_num⟩
  norm_num [Session.step, Session.init, KineticsSolver.solve, mkSolverCore,
    initialState, integMid, HORIZON]

/-- **C2 (amended).** `step()` is a single advance consuming at most one
sample: if `future` is empty it is a no-op; if the earliest future time is
greater than the elapsed time it is a no-op; otherwise exactly the first
sample (time and value) moves from the front of `future` to the end of
`past` and `solutionIndex` advances by one — later due samples wait for
subsequent `step()` calls. -/
theorem step_pops_at_most_one (c : ℚ) (s : Session) :
    (s.future.times = [] → Session.step c s = s) ∧
    (∀ t ts, s.future.times = t :: ts → c < t → Session.step c s = s) ∧
    (∀ t ts, s.future.times = t :: ts → t ≤ c →
      Session.step c s =
        { s with
          past := ⟨s.past.times ++ [t], s.past.vals ++ [s.future.vals.headD 0]⟩
          future := ⟨ts, s.future.vals.tail⟩
          solutionIndex := s.solutionIndex + 1 }) := by
  refine ⟨?_, ?_, ?_⟩
  · intro h
    simp [Session.step, h]
  · intro t ts h hlt
    simp [Session.step, h, hlt]
  · intro t ts h hle
    simp [Session.step, h, not_lt.mpr hle]

/-- **C2 (witness).** In a freshly constructed session whose future starts
with the sample at time `0`, a `step()` at elapsed time `5` moves exactly
that sample into `past`. -/
theorem step_pops_at_most_one_witness :
    (Session.step 5 (Session.init integLin ⟨[1], [1 / 2]⟩ 1)).past.times = [0] := by
  have hft : (Session.init integLin ⟨[1], [1 / 2]⟩ 1).future.times = 0 :: [20] := by
    norm_num [Session.init, KineticsSolver.solve, mkSolverCore, initialState,
      integLin, HORIZON]
  have h := (step_pops_at_most_one 5 (Session.init integLin ⟨[1], [1 / 2]⟩ 1)).2.2
    0 [20] hft (by norm_num)
  rw [h]
  have hpt : (Session.init integLin ⟨[1], [1 / 2]⟩ 1).past.times = [] := rfl
  show (Session.init integLin ⟨[1], [1 / 2]⟩ 1).past.times ++ [0] = [0]
  rw [hpt, List.nil_append]

/-- **C3.** `recomputeFuture(duration)` continues from "now": when the
continuation index is in range, the initial state of the new solve — and
hence the first sample of the new full trajectory and of the new future —
is the state vector at `solutionIndex` within the most recent full
trajectory (`_fullSolution[:, _solutionIndex]`), the new future starts at
the current elapsed time, and `solutionIndex` is reset to `0`. -/
theorem recompute_continuity (integ : Integ) (hI : IntegOK integ) (c d : ℚ)
    (hd : 0 < d) (s : Session)
    (hidx : s.solutionIndex < s.fullSolution.length) :
    (Session.recomputeFuture integ c d s).fullSolution.head? = some (contVec s) ∧
    (Session.recomputeFuture integ c d s).future.vals.head? =
      some ((contVec s).headD 0) ∧
    (Session.recomputeFuture integ c d s).future.times.head? = some c ∧
    (Session.recomputeFuture integ c d s).solutionIndex = 0 := by
  obtain ⟨hne, hhead, hsort, hlen, hcol⟩ :=
    hI (rhsFun s) c (c + d) (contVec s) (by linarith)
  rw [recompute_eq integ c d s hidx]
  refine ⟨hcol, ?_, hhead, rfl⟩
  show ((integ (rhsFun s) c (c + d) (contVec s)).2.map (List.headD · 0)).head? = _
  rw [List.head?_map, hcol, Option.map_some']

/-- **C3 (witness).** Concrete instance: in a fresh session (index 0 within
a two-sample full solution), `recomputeFuture` at elapsed time 5 starts the
new trajectory from the continuation state. -/
theorem recompute_continuity_witness :
    (Session.recomputeFuture integLin 5 20
        (Session.init integLin ⟨[1], [1 / 2]⟩ 1)).fullSolution.head? =
      some (contVec (Session.init integLin ⟨[1], [1 / 2]⟩ 1)) ∧
    (Session.recomputeFuture integLin 5 20
        (Session.init integLin ⟨[1], [1 / 2]⟩ 1)).future.vals.head? =
      some ((contVec (Session.init integLin ⟨[1], [1 / 2]⟩ 1)).headD 0) ∧
    (Session.recomputeFuture integLin 5 20
        (Session.init integLin ⟨[1], [1 / 2]⟩ 1)).future.times.head? = some 5 ∧
    (Session.recomputeFuture integLin 5 20
        (Session.init integLin ⟨[1], [1 / 2]⟩ 1)).solutionIndex = 0 :=
  recompute_continuity integLin integLin_ok 5 20 (by norm_num)
    (Session.init integLin ⟨[1], [1 / 2]⟩ 1) (by norm_num [Session.init,
      KineticsSolver.solve, mkSolverCore, initialState, integLin, HORIZON])

/-- **C8.** `past` is append-only: under every session operation (`step`,
`recomputeFuture`, a reactivity change), the prior elements of `past.times`
and `past.vals` remain unchanged in place and the operation can only extend
them at the end. -/
theorem past_append_only (integ : Integ) (op : Op) (s : Session) :
    ∃ u v, (Session.applyOp integ op s).past.times = s.past.times ++ u ∧
      (Session.applyOp integ op s).past.vals = s.past.vals ++ v := by
  cases op with
  | step c =>
    show ∃ u v, (Session.step c s).past.times = _ ∧ (Session.step c s).past.vals = _
    cases hft : s.future.times with
    | nil =>
      refine ⟨[], [], ?_, ?_⟩ <;> simp [Session.step, hft]
    | cons t ts =>
      by_cases hc : c < t
      · refine ⟨[], [], ?_, ?_⟩ <;> simp [Session.step, hft, hc]
      · refine ⟨[t], [s.future.vals.headD 0], ?_, ?_⟩ <;> simp [Session.step, hft, hc]
  | recompute c =>
    refine ⟨[], [], ?_, ?_⟩ <;>
      simp [Session.applyOp, recompute_past]
  | setRho c rho =>
    refine ⟨[], [], ?_, ?_⟩ <;>
      simp [Session.applyOp, Session.setReactivity, recompute_past]

/-- **C6 (counterexample).** With non-decreasing clock readings, `past.times`
need not be *strictly* increasing: stepping at elapsed time 0 (consuming the
sample at `t = 0`), re-solving at elapsed time 0 (the new future starts
exactly at the current elapsed time 0), and stepping again appends the time
`0` twice to `past`. -/
theorem run_past_not_strict_cex :
    clocksMono 0 [Op.step 0, Op.recompute 0, Op.step 0] = true ∧
    (Session.run integLin (Session.init integLin ⟨[1], [1 / 2]⟩ 1)
        [Op.step 0, Op.recompute 0, Op.step 0]).past.times = [0, 0] ∧
    ¬ List.Sorted (· < ·)
      (Session.run integLin (Session.init integLin ⟨[1], [1 / 2]⟩ 1)
        [Op.step 0, Op.recompute 0, Op.step 0]).past.times := by
  have hrun : (Session.run integLin (Session.init integLin ⟨[1], [1 / 2]⟩ 1)
      [Op.step 0, Op.recompute 0, Op.step 0]).past.times = [0, 0] := by
    norm_num [Session.run, Session.applyOp, Session.step, Session.recomputeFuture,
      Session.init, KineticsSolver.solve, mkSolverCore, initialState, integLin,
      HORIZON, Session.reactivity, List.getD]
  refine ⟨by norm_num [clocksMono, Op.clock], hrun, ?_⟩
  rw [hrun]
  simp [List.sorted_cons]

/-- **C6 (amended).** For every sequence of `step()`, `recomputeFuture()` and
reactivity-change calls on a freshly constructed session, with
non-decreasing clock readings, `past.times` is non-decreasing (it is
strictly increasing except that a re-solve boundary may duplicate the
current instant), and every element of `past.times` is ≤ every element of
`future.times`, at every point of the sequence. -/
theorem run_monotone_merge (integ : Integ) (hI : IntegOK integ)
    (data : DelayedNeutronData) (Lam : ℚ) (ops : List Op)
    (hops : clocksMono 0 ops = true) :
    List.Sorted (· ≤ ·)
      (Session.run integ (Session.init integ data Lam) ops).past.times ∧
    ∀ p ∈ (Session.run integ (Session.init integ data Lam) ops).past.times,
      ∀ f ∈ (Session.run integ (Session.init integ data Lam) ops).future.times,
        p ≤ f := by
  obtain ⟨c', hinv⟩ := invMono_run integ hI ops 0 (Session.init integ data Lam)
    hops (invMono_init integ hI data Lam)
  exact ⟨hinv.1, hinv.2.2.2⟩

/-- **C6 (witness).** Concrete run (a step at time 0, a re-solve at time 1,
a step at time 2) with the structural integrator. -/
theorem run_monotone_merge_witness :
    List.Sorted (· ≤ ·)
      (Session.run integLin (Session.init integLin ⟨[1], [1 / 2]⟩ 1)
        [Op.step 0, Op.recompute 1, Op.step 2]).past.times ∧
    ∀ p ∈ (Session.run integLin (Session.init integLin ⟨[1], [1 / 2]⟩ 1)
        [Op.step 0, Op.recompute 1, Op.step 2]).past.times,
      ∀ f ∈ (Session.run integLin (Session.init integLin ⟨[1], [1 / 2]⟩ 1)
        [Op.step 0, Op.recompute 1, Op.step 2]).future.times, p ≤ f :=
  run_monotone_merge integLin integLin_ok ⟨[1], [1 / 2]⟩ 1
    [Op.step 0, Op.recompute 1, Op.step 2]
    (by norm_num [clocksMono, Op.clock])

/-- **C10.** Parallel-array invariant: after construction and after every
sequence of session operations, `len(past.times) = len(past.vals)` and
`len(future.times) = len(future.vals)` — times and values are always popped
and appended as a pair. -/
theorem parallel_arrays (integ : Integ) (hI : IntegOK integ)
    (data : DelayedNeutronData) (Lam : ℚ) (ops : List Op) :
    (Session.run integ (Session.init integ data Lam) ops).past.times.length =
      (Session.run integ (Session.init integ data Lam) ops).past.vals.length ∧
    (Session.run integ (Session.init integ data Lam) ops).future.times.length =
      (Session.run integ (Session.init integ data Lam) ops).future.vals.length :=
  invLen_run integ hI ops (Session.init integ data Lam)
    (invLen_init integ hI data Lam)

/-- **C10 (witness).** Concrete run with the structural integrator. -/
theorem parallel_arrays_witness :
    (Session.run integLin (Session.init integLin ⟨[1], [1 / 2]⟩ 1)
        [Op.step 0, Op.setRho 1 (1 / 2), Op.step 3]).past.times.length =
      (Session.run integLin (Session.init integLin ⟨[1], [1 / 2]⟩ 1)
        [Op.step 0, Op.setRho 1 (1 / 2), Op.step 3]).past.vals.length ∧
    (Session.run integLin (Session.init integLin ⟨[1], [1 / 2]⟩ 1)
        [Op.step 0, Op.setRho 1 (1 / 2), Op.step 3]).future.times.length =
      (Session.run integLin (Session.init integLin ⟨[1], [1 / 2]⟩ 1)
        [Op.step 0, Op.setRho 1 (1 / 2), Op.step 3]).future.vals.length :=
  parallel_arrays integLin integLin_ok ⟨[1], [1 / 2]⟩ 1
    [Op.step 0, Op.setRho 1 (1 / 2), Op.step 3]

/-- **C9.** The session's reactivity callback ignores its time argument: for
any two times it returns the same value, namely the current `_currentRho`. -/
theorem reactivity_time_independent (s : Session) (t1 t2 : ℚ) :
    s.reactivity t1 = s.reactivity t2 ∧ s.reactivity t1 = s.currentRho :=
  ⟨rfl, rfl⟩

end Keepinpace
